import Mathlib

/-!
# Flush / capture pipeline of the LVGL adapter, and the time histogram scaling

A shallow embedding of `platformio/src/display/lvgl_adapter.cpp`
(`capture_buffer`, `my_flush_cb`, `my_touch_read_cb`, `start_screen_capture`,
`stop_screen_capture`) and of the scaling loop of
`platformio/src/ui/time_histogram_screen.cpp` (`TimeHistogramScreen::loop`),
followed by the properties proved about them.

Conventions of the embedding:

* text written with `printf` is a `List Char`, in the order it is written;
* `lv_coord_t` (declared in `lv_conf.h`, outside the files at hand) is a 16-bit
  signed integer: the adapter prints a coordinate with `%d` and the `int32_t`
  width with `%ld`. Its values live in `Int`; the statements on regions hold
  for every `Int` coordinate, the concrete regions used below have
  coordinates within the 16-bit signed range, and a store of a `uint16_t` into
  a coordinate goes through `to_lv_coord`;
* `lv_color_t` at `LV_COLOR_DEPTH == 8` (enforced by the `#error` at the top of
  the adapter) is one byte, modelled by `Fin 256`;
* `uint16_t` and `uint32_t` / `uint64_t` arithmetic is arithmetic on `Nat`
  reduced modulo `2^16`, `2^32`, `2^64` at the places where the source computes
  in those types.
-/

set_option autoImplicit false

namespace lvgl_adapter

/-! ## Data model -/

/-- One pixel: `lv_color_t` at colour depth 8, read through its `.full` member. -/
abbrev lv_color_t := Fin 256

/-- The coordinate type `lv_coord_t`, declared in `lv_conf.h`: a 16-bit signed
integer, its values taken in `Int`. The statements on regions hold for every
`Int` coordinate, so for every value of the type. -/
abbrev lv_coord_t := Int

/-- The conversion of a `uint16_t` to `lv_coord_t`, as in `data->point.x = x`:
the 16 bits read as a two's complement number, so that a value above 32767
becomes negative. -/
def to_lv_coord (v : Nat) : lv_coord_t :=
  if v % 65536 < 32768 then ((v % 65536 : Nat) : Int) else ((v % 65536 : Nat) : Int) - 65536

/-- The region descriptor `lv_area_t`: inclusive bounds. -/
structure lv_area_t where
  x1 : lv_coord_t
  y1 : lv_coord_t
  x2 : lv_coord_t
  y2 : lv_coord_t
deriving DecidableEq

/-- The value `area->x2 - area->x1 + 1` stored in `w_pixels`. -/
def w_pixels (area : lv_area_t) : Int := area.x2 - area.x1 + 1

/-- The value `area->y2 - area->y1 + 1` stored in `h_pixels`. -/
def h_pixels (area : lv_area_t) : Int := area.y2 - area.y1 + 1

/-! ## `printf` conversions used by the adapter -/

/-- Conversions `%d` and `%ld`: signed decimal, no padding. -/
def printf_d (v : Int) : List Char :=
  if v < 0 then '-' :: Nat.toDigits 10 v.natAbs else Nat.toDigits 10 v.toNat

/-- Conversion `%hu`: the argument as an unsigned short, in decimal. -/
def printf_hu (v : Nat) : List Char := Nat.toDigits 10 (v % 65536)

/-- Conversion `%hx`: the argument as an unsigned short, in lower-case hex. -/
def printf_hx (v : Nat) : List Char := Nat.toDigits 16 (v % 65536)

/-- The text of `printf("#%d,%d,%ld", area->x1, area->y1 + y, w_pixels)`. -/
def printf_header (area : lv_area_t) (y : Nat) : List Char :=
  '#' :: printf_d area.x1 ++ ',' :: printf_d (area.y1 + y) ++ ',' :: printf_d (w_pixels area)

/-- The text of `printf(",%hu:%hx", pending_pixels_count, pending_pixel_color)`. -/
def printf_run (pending_pixels_count : Nat) (pending_pixel_color : lv_color_t) : List Char :=
  ',' :: printf_hu pending_pixels_count ++ ':' :: printf_hx pending_pixel_color.val

/-! ## `capture_buffer` -/

/-- The local variables of the inner loop of `capture_buffer`, with the text
printed so far in the current row after its header. -/
structure Pending where
  pending_pixels_count : Nat
  pending_pixel_color : lv_color_t
  out : List Char
deriving DecidableEq

/-- One iteration of the inner loop (`for x`) on the pixel just read. The
counter is a `uint16_t`: its increment is modulo `2^16`. -/
def scan_pixel (st : Pending) (pixel_color : lv_color_t) : Pending :=
  -- Case 0: no pending.
  if st.pending_pixels_count = 0 then
    { st with pending_pixels_count := 1, pending_pixel_color := pixel_color }
  -- Case 1: pending exists, append to pending.
  else if st.pending_pixel_color = pixel_color then
    { st with pending_pixels_count := (st.pending_pixels_count + 1) % 65536 }
  -- Case 2: pending exist, flushing pending.
  else
    { pending_pixels_count := 1
      pending_pixel_color := pixel_color
      out := st.out ++ printf_run st.pending_pixels_count st.pending_pixel_color }

/-- The pixel `bfr[(uint32_t)y * w_pixels + x].full`. A read past the end of
the buffer (undefined in the source) yields 0 here. -/
def read_pixel (bfr : List lv_color_t) (w : Nat) (y x : Nat) : lv_color_t :=
  bfr.getD ((y * w + x) % 2 ^ 32) 0

/-- The pixels the inner loop reads for row `y`, for `x = 0 .. w_pixels - 1`. -/
def scanned_pixels (area : lv_area_t) (bfr : List lv_color_t) (y : Nat) : List lv_color_t :=
  (List.range (w_pixels area).toNat).map (read_pixel bfr (w_pixels area).toNat y)

/-- The state of the inner loop when it ends, for row `y`. -/
def scan_row (area : lv_area_t) (bfr : List lv_color_t) (y : Nat) : Pending :=
  (scanned_pixels area bfr y).foldl scan_pixel
    { pending_pixels_count := 0, pending_pixel_color := 0, out := [] }

/-- The text printed after the inner loop: the pending run if any. -/
def flush_pending (st : Pending) : List Char :=
  if st.pending_pixels_count > 0 then
    st.out ++ printf_run st.pending_pixels_count st.pending_pixel_color
  else st.out

/-- The run tokens printed for row `y`, between its header and its line break. -/
def row_tokens_text (area : lv_area_t) (bfr : List lv_color_t) (y : Nat) : List Char :=
  flush_pending (scan_row area bfr y)

/-- One iteration of the outer loop (`for y`): header, run tokens, line break. -/
def capture_row (area : lv_area_t) (bfr : List lv_color_t) (y : Nat) : List Char :=
  printf_header area y ++ row_tokens_text area bfr y ++ ['\n']

/-- The text `capture_buffer(area, bfr)` prints: rows `y = 0 .. h_pixels - 1`. -/
def capture_buffer (area : lv_area_t) (bfr : List lv_color_t) : List Char :=
  (List.range (h_pixels area).toNat).flatMap (capture_row area bfr)

/-! ## The flush callback, the capture toggle and the touch callback -/

/-- What the adapter does to the outside world, in program order. -/
inductive Effect where
  /-- The indicator LED2 is switched on. -/
  | led2_on
  /-- The indicator LED2 is switched off. -/
  | led2_off
  /-- One character is written to the diagnostic output stream by `printf`. -/
  | putchar (c : Char)
  /-- The call `tft_driver->render_buffer(x1, y1, x2, y2, data)`. -/
  | render_buffer (x1 y1 x2 y2 : lv_coord_t) (data : List lv_color_t)
  /-- The call `lv_disp_flush_ready(disp_drv)`. -/
  | lv_disp_flush_ready
deriving DecidableEq

/-- The static flag of the adapter, and the effects performed so far. -/
structure State where
  screen_capture_enabled : Bool
  trace : List Effect
deriving DecidableEq

/-- Appends one effect to the trace. -/
def State.emit (s : State) (e : Effect) : State :=
  { s with trace := s.trace ++ [e] }

/-- Writes a text to the diagnostic output stream, character by character. -/
def State.printf (s : State) (text : List Char) : State :=
  { s with trace := s.trace ++ text.map Effect.putchar }

/-- Modelled from the spec: the macro `LED2_ON` of `io.h`, which is not among
the sources at hand. The flush coordinator "toggles an indicator signal (e.g.,
an LED) for the duration of the hardware transfer": the macro switches it on. -/
def LED2_ON (s : State) : State := s.emit Effect.led2_on

/-- Modelled from the spec: the macro `LED2_OFF` of `io.h`, which is not among
the sources at hand; it switches the indicator signal off. -/
def LED2_OFF (s : State) : State := s.emit Effect.led2_off

/-- The callback `my_flush_cb(disp_drv, area, color_p)`. -/
def my_flush_cb (s : State) (area : lv_area_t) (color_p : List lv_color_t) : State :=
  let s := LED2_ON s
  let s := if s.screen_capture_enabled then s.printf (capture_buffer area color_p) else s
  -- Per our lv config settings, LVGL uses 8 bits colors.
  let s := s.emit (Effect.render_buffer area.x1 area.y1 area.x2 area.y2 color_p)
  -- IMPORTANT!!! Inform the graphics library that flushing was done.
  let s := s.emit Effect.lv_disp_flush_ready
  LED2_OFF s

/-- The function `start_screen_capture()`. -/
def start_screen_capture (s : State) : State :=
  State.printf { s with screen_capture_enabled := true } "###BEGIN screen capture\n".toList

/-- The function `stop_screen_capture()`. -/
def stop_screen_capture (s : State) : State :=
  State.printf { s with screen_capture_enabled := false } "###END screen capture\n".toList

/-- The text on the diagnostic output stream in a trace. -/
def stdout_text : List Effect → List Char
  | [] => []
  | Effect.putchar c :: es => c :: stdout_text es
  | _ :: es => stdout_text es

/-- Whether an effect is a call of the Pixel Sink or the buffer-free signal. -/
def Effect.is_flush_step : Effect → Bool
  | Effect.render_buffer _ _ _ _ _ => true
  | Effect.lv_disp_flush_ready => true
  | _ => false

/-- What `touch_driver::touch_read(&x, &y, &is_pressed)` stores: two `uint16_t`
and a flag. -/
structure TouchSample where
  x : Nat
  y : Nat
  is_pressed : Bool
deriving DecidableEq

/-- The states `LV_INDEV_STATE_REL` and `LV_INDEV_STATE_PR`. -/
inductive lv_indev_state_t where
  | LV_INDEV_STATE_REL
  | LV_INDEV_STATE_PR
deriving DecidableEq

/-- The members `point.x` and `point.y` of `lv_indev_data_t`. -/
structure lv_point_t where
  x : lv_coord_t
  y : lv_coord_t
deriving DecidableEq

/-- The members of `lv_indev_data_t` the callback writes. -/
structure lv_indev_data_t where
  point : lv_point_t
  state : lv_indev_state_t
deriving DecidableEq

/-- The callback `my_touch_read_cb(drv, data)`, given the sample `touch_read`
stores: the returned flag and the record as the callback leaves it. The two
stores into the point convert a `uint16_t` to `lv_coord_t`. -/
def my_touch_read_cb (sample : TouchSample) (data : lv_indev_data_t) :
    Bool × lv_indev_data_t :=
  let data := { data with point := { data.point with x := to_lv_coord sample.x } }
  let data := { data with point := { data.point with y := to_lv_coord sample.y } }
  let data := { data with
    state := if sample.is_pressed then lv_indev_state_t.LV_INDEV_STATE_PR
             else lv_indev_state_t.LV_INDEV_STATE_REL }
  -- No buffering now so no more data read.
  (false, data)

end lvgl_adapter

namespace TimeHistogramScreen

/-- The constant `kUpdateIntervalMillis`. -/
def kUpdateIntervalMillis : Nat := 200

/-- The first loop of `loop`: `max_ticks` starts at bucket 0 and is raised by
each later bucket that exceeds it. The bucket totals are the list `buckets`,
of length `analyzer::kNumHistogramBuckets`. -/
def find_max_ticks (buckets : List Nat) : Nat :=
  (buckets.drop 1).foldl (fun max_ticks ticks => if ticks > max_ticks then ticks else max_ticks)
    (buckets.getD 0 0)

/-- The body of the second loop: the value stored in `points[i]` for a bucket
holding `ticks`. The product is a `uint64_t`, the quotient is stored in a
`uint16_t`. -/
def point_value (max_ticks ticks : Nat) : Nat :=
  -- Scale the value to [0, 100];
  let val := (if max_ticks > 0 then ((ticks * 100) % 2 ^ 64) / max_ticks else 0) % 2 ^ 16
  -- Indicate non zero buckets. Even if it's a tiny fraction.
  if ticks > 0 ∧ val = 0 then 1 else val

/-- The method `loop()`, given the elapsed time the guard reads and the bucket
totals `sample_state` returns: `none` when the guard returns early, else the
histogram points written, in bucket order. -/
def loop (elapsed_millis : Nat) (buckets : List Nat) : Option (List Nat) :=
  if elapsed_millis < kUpdateIntervalMillis then none
  else some (buckets.map (point_value (find_max_ticks buckets)))

end TimeHistogramScreen

namespace capture_decoder

/-! ## Reading a captured stream back

The reconstruction the capture text is written for: lines are cut at line
breaks, a line is cut into fields at commas, a run field is cut at its colon,
and each run is expanded into `count` pixels of its colour. -/

/-- Cuts a text at every occurrence of `sep`; the pieces, in order. -/
def split_on (sep : Char) : List Char → List (List Char)
  | [] => [[]]
  | c :: cs =>
    if c = sep then [] :: split_on sep cs
    else
      match split_on sep cs with
      | [] => [[c]]
      | p :: ps => (c :: p) :: ps

/-- The value of a digit character, `0-9` and `a-f`. -/
def digit_value (c : Char) : Option Nat :=
  if 48 ≤ c.toNat ∧ c.toNat ≤ 57 then some (c.toNat - 48)
  else if 97 ≤ c.toNat ∧ c.toNat ≤ 102 then some (c.toNat - 87)
  else none

/-- One step of reading a number: the next digit appended to the value read. -/
def parse_step (base : Nat) (acc : Option Nat) (c : Char) : Option Nat :=
  match acc, digit_value c with
  | some a, some d => if d < base then some (a * base + d) else none
  | _, _ => none

/-- Reads an unsigned number in the given base; fails on an empty text and on
any character that is not a digit of the base. -/
def parse_nat (base : Nat) (cs : List Char) : Option Nat :=
  match cs with
  | [] => none
  | _ => cs.foldl (parse_step base) (some 0)

/-- Reads a signed decimal number. -/
def parse_int (cs : List Char) : Option Int :=
  match cs with
  | '-' :: ds => (parse_nat 10 ds).map fun n => Int.negOfNat n
  | _ => (parse_nat 10 cs).map fun n => Int.ofNat n

/-- Applies `f` to every element; fails if `f` fails on one. -/
def map_all {α β : Type} (f : α → Option β) : List α → Option (List β)
  | [] => some []
  | a :: as =>
    match f a, map_all f as with
    | some b, some bs => some (b :: bs)
    | _, _ => none

/-- Reads one run field `<count>:<hex colour>`. -/
def parse_run (field : List Char) : Option (Nat × Nat) :=
  match split_on ':' field with
  | [c, h] =>
    match parse_nat 10 c, parse_nat 16 h with
    | some n, some col => some (n, col)
    | _, _ => none
  | _ => none

/-- Expands runs into pixels: each `(count, colour)` into `count` pixels of that
colour, left to right. -/
def expand {α : Type} (runs : List (Nat × α)) : List α :=
  runs.flatMap fun r => List.replicate r.1 r.2

/-- A decoded line: the header fields and the pixels of the row. -/
structure CapturedRow where
  x : Int
  y : Int
  width : Int
  pixels : List Nat
deriving DecidableEq

/-- Reads one line `#<x>,<y>,<width>[,<count>:<hex colour>]*`. -/
def decode_line (line : List Char) : Option CapturedRow :=
  match line with
  | '#' :: rest =>
    match split_on ',' rest with
    | fx :: fy :: fw :: fields =>
      match parse_int fx, parse_int fy, parse_int fw, map_all parse_run fields with
      | some x, some y, some w, some runs => some ⟨x, y, w, expand runs⟩
      | _, _, _, _ => none
    | _ => none
  | _ => none

/-- The line-break-terminated lines of a text, and what follows the last line
break. -/
def text_lines (text : List Char) : List (List Char) × List Char :=
  let pieces := split_on '\n' text
  (pieces.dropLast, pieces.getLastD [])

/-- Reads a captured stream: every line must end in a line break and decode. -/
def decode (text : List Char) : Option (List CapturedRow) :=
  match text_lines text with
  | (lines, []) => map_all decode_line lines
  | _ => none

/-- The maximal runs of adjacent equal elements, left to right, each with its
length. -/
def runs {α : Type} [DecidableEq α] : List α → List (Nat × α)
  | [] => []
  | c :: cs =>
    match runs cs with
    | [] => [(1, c)]
    | (n, d) :: rest => if c = d then (n + 1, d) :: rest else (1, c) :: (n, d) :: rest

/-- The rows of a buffer of row width `w`: row `y` is `bfr[y*w .. y*w + w - 1]`. -/
def buffer_row (bfr : List lvgl_adapter.lv_color_t) (w : Nat) (y : Nat) :
    List lvgl_adapter.lv_color_t :=
  (bfr.drop (y * w)).take w

/-- Whether a character is a digit, `0-9` or `a-f`. -/
def is_digit (c : Char) : Bool := (digit_value c).isSome

/-- The text of a list of run tokens, each printed as `printf_run` prints it. -/
def tokens_text (rs : List (Nat × lvgl_adapter.lv_color_t)) : List Char :=
  rs.flatMap fun r => lvgl_adapter.printf_run r.1 r.2

end capture_decoder

/-! # Properties -/

namespace capture_decoder
open lvgl_adapter

/-! ## Digits -/

theorem digit_value_digitChar (d : Nat) (h : d < 16) :
    digit_value (Nat.digitChar d) = some d := by
  interval_cases d <;> rfl

theorem is_digit_digitChar (d : Nat) (h : d < 16) : is_digit (Nat.digitChar d) = true := by
  simp [is_digit, digit_value_digitChar d h]

theorem toDigitsCore_digits (b : Nat) (hb : 0 < b) (hb16 : b ≤ 16) (fuel : Nat) :
    ∀ (n : Nat) (ds : List Char), (∀ c ∈ ds, is_digit c = true) →
      ∀ c ∈ Nat.toDigitsCore b fuel n ds, is_digit c = true := by
  induction fuel with
  | zero => intro n ds hds c hc; simpa [Nat.toDigitsCore] using hds c hc
  | succ fuel ih =>
    intro n ds hds c hc
    have hd : ∀ c ∈ Nat.digitChar (n % b) :: ds, is_digit c = true := by
      intro c hc
      rcases List.mem_cons.1 hc with h | h
      · rw [h]
        exact is_digit_digitChar _ (lt_of_lt_of_le (Nat.mod_lt _ hb) hb16)
      · exact hds c h
    simp only [Nat.toDigitsCore] at hc
    split at hc
    · exact hd c hc
    · exact ih _ _ hd c hc

theorem toDigits_digits (b : Nat) (hb : 0 < b) (hb16 : b ≤ 16) (n : Nat) :
    ∀ c ∈ Nat.toDigits b n, is_digit c = true :=
  toDigitsCore_digits b hb hb16 _ n [] (by simp)

theorem toDigitsCore_append (b fuel : Nat) :
    ∀ (n : Nat) (ds : List Char),
      Nat.toDigitsCore b fuel n ds = Nat.toDigitsCore b fuel n [] ++ ds := by
  induction fuel with
  | zero => intro n ds; simp [Nat.toDigitsCore]
  | succ fuel ih =>
    intro n ds
    simp only [Nat.toDigitsCore]
    split
    · simp
    · rw [ih _ (_ :: ds), ih _ [_]]; simp

theorem toDigitsCore_ne_nil (b fuel n : Nat) :
    Nat.toDigitsCore b (fuel + 1) n [] ≠ [] := by
  simp only [Nat.toDigitsCore]
  split
  · simp
  · rw [toDigitsCore_append]; simp

theorem toDigits_ne_nil (b n : Nat) : Nat.toDigits b n ≠ [] :=
  toDigitsCore_ne_nil b n n

theorem parse_step_digitChar (b a d : Nat) (hd : d < b) (hb16 : b ≤ 16) :
    parse_step b (some a) (Nat.digitChar d) = some (a * b + d) := by
  unfold parse_step
  rw [digit_value_digitChar d (by omega)]
  simp [hd]

theorem parse_toDigitsCore (b : Nat) (hb : 2 ≤ b) (hb16 : b ≤ 16) (fuel : Nat) :
    ∀ n, n < fuel →
      (Nat.toDigitsCore b fuel n []).foldl (parse_step b) (some 0) = some n := by
  induction fuel with
  | zero => intro n h; omega
  | succ fuel ih =>
    intro n hn
    have hmod : n % b < b := Nat.mod_lt _ (by omega)
    have hdv : digit_value (Nat.digitChar (n % b)) = some (n % b) :=
      digit_value_digitChar _ (by omega)
    simp only [Nat.toDigitsCore]
    split
    · rename_i h0
      have : n % b = n := by
        have := Nat.div_add_mod n b
        rw [h0] at this; omega
      simp only [List.foldl, parse_step_digitChar b 0 _ hmod hb16]
      simp [this]
    · rename_i h0
      have hlt : n / b < fuel := by
        have : n / b < n := Nat.div_lt_self (by
          rcases Nat.eq_zero_or_pos n with h | h
          · subst h; simp at h0
          · exact h) hb
        omega
      rw [toDigitsCore_append, List.foldl_append, ih _ hlt]
      simp only [List.foldl, parse_step_digitChar b _ _ hmod hb16]
      congr 1
      have := Nat.div_add_mod n b
      nlinarith [Nat.mul_comm b (n / b)]

theorem parse_nat_toDigits (b : Nat) (hb : 2 ≤ b) (hb16 : b ≤ 16) (n : Nat) :
    parse_nat b (Nat.toDigits b n) = some n := by
  have h := parse_toDigitsCore b hb hb16 (n + 1) n (Nat.lt_succ_self n)
  have hne := toDigits_ne_nil b n
  unfold parse_nat
  split
  · contradiction
  · exact h

theorem parse_int_printf_d (v : Int) : parse_int (printf_d v) = some v := by
  unfold printf_d
  split
  · rename_i h
    simp only [parse_int, parse_nat_toDigits 10 (by omega) (by omega), Option.map_some']
    simp only [Int.negOfNat_eq, Int.ofNat_eq_coe, Option.some.injEq]
    omega
  · rename_i h
    have hd := toDigits_digits 10 (by omega) (by omega) v.toNat
    have hne := toDigits_ne_nil 10 v.toNat
    have hp := parse_nat_toDigits 10 (by omega) (by omega) v.toNat
    unfold parse_int
    split
    · rename_i ds heq
      have : is_digit '-' = true := hd '-' (by rw [heq]; simp)
      exact absurd this (by decide)
    · rw [hp]; simp only [Option.map_some', Int.ofNat_eq_coe, Option.some.injEq]; omega


/-! ## Cutting a text at a separator -/

theorem split_on_ne_nil (sep : Char) (l : List Char) : split_on sep l ≠ [] := by
  cases l with
  | nil => simp [split_on]
  | cons c cs =>
    unfold split_on
    split
    · simp
    · split <;> simp

theorem split_on_piece (sep : Char) (p rest : List Char) (hp : sep ∉ p) :
    split_on sep (p ++ sep :: rest) = p :: split_on sep rest := by
  induction p with
  | nil => simp [split_on]
  | cons c p ih =>
    have hc : c ≠ sep := fun h => hp (by simp [h])
    have hp2 : sep ∉ p := fun h => hp (List.mem_cons_of_mem _ h)
    show split_on sep (c :: (p ++ sep :: rest)) = _
    rw [split_on, if_neg hc, ih hp2]

theorem split_on_last (sep : Char) (p : List Char) (hp : sep ∉ p) :
    split_on sep p = [p] := by
  induction p with
  | nil => simp [split_on]
  | cons c p ih =>
    have hc : c ≠ sep := fun h => hp (by simp [h])
    have hp2 : sep ∉ p := fun h => hp (List.mem_cons_of_mem _ h)
    simp only [split_on, if_neg hc, ih hp2]

theorem split_on_fields (sep : Char) (fields : List (List Char))
    (hf : ∀ f ∈ fields, sep ∉ f) :
    ∀ (p : List Char), sep ∉ p →
      split_on sep (p ++ fields.flatMap fun f => sep :: f) = p :: fields := by
  induction fields with
  | nil => intro p hp; simpa using split_on_last sep p hp
  | cons f fs ih =>
    intro p hp
    have h1 : sep ∉ f := hf f (by simp)
    have h2 : ∀ g ∈ fs, sep ∉ g := fun g hg => hf g (List.mem_cons_of_mem _ hg)
    simp only [List.flatMap_cons, List.cons_append]
    rw [split_on_piece sep p _ hp, ih h2 f h1]

theorem split_on_lines (sep : Char) (lines : List (List Char))
    (hl : ∀ l ∈ lines, sep ∉ l) :
    split_on sep (lines.flatMap fun l => l ++ [sep]) = lines ++ [[]] := by
  induction lines with
  | nil => simp [split_on]
  | cons l ls ih =>
    have h1 : sep ∉ l := hl l (by simp)
    have h2 : ∀ g ∈ ls, sep ∉ g := fun g hg => hl g (List.mem_cons_of_mem _ hg)
    simp only [List.flatMap_cons, List.append_assoc, List.singleton_append, List.cons_append]
    rw [split_on_piece sep l _ h1, List.nil_append, ih h2]

theorem text_lines_flatMap (lines : List (List Char)) (hl : ∀ l ∈ lines, '\n' ∉ l) :
    text_lines (lines.flatMap fun l => l ++ ['\n']) = (lines, []) := by
  simp [text_lines, split_on_lines _ lines hl]

theorem map_all_eq_map {α β : Type} (f : α → Option β) (g : α → β) (l : List α)
    (h : ∀ a ∈ l, f a = some (g a)) : map_all f l = some (l.map g) := by
  induction l with
  | nil => rfl
  | cons a as ih =>
    have h1 := h a (by simp)
    have h2 := ih fun b hb => h b (List.mem_cons_of_mem _ hb)
    simp [map_all, h1, h2]

/-! ## Maximal runs -/

section Runs
variable {α : Type} [DecidableEq α]

theorem runs_cons_shape (a : α) (l : List α) :
    ∃ n rest, runs (a :: l) = (n + 1, a) :: rest := by
  induction l generalizing a with
  | nil => exact ⟨0, [], rfl⟩
  | cons b l ih =>
    obtain ⟨n, rest, h⟩ := ih b
    by_cases hab : a = b
    · subst hab
      exact ⟨n + 1, rest, by rw [runs, h]; simp⟩
    · exact ⟨0, (n + 1, b) :: rest, by rw [runs, h]; simp [hab]⟩

theorem runs_replicate_append (k : Nat) (c : α) (m : List α) (hm : m.head? ≠ some c) :
    runs (List.replicate (k + 1) c ++ m) = (k + 1, c) :: runs m := by
  induction k with
  | zero =>
    cases m with
    | nil => rfl
    | cons a m =>
      obtain ⟨n, rest, h⟩ := runs_cons_shape a m
      have hac : c ≠ a := fun h => hm (by simp [h])
      show runs (c :: a :: m) = _
      rw [runs, h]; simp [hac]
  | succ k ih =>
    show runs (c :: (List.replicate (k + 1) c ++ m)) = _
    rw [runs, ih]; simp

theorem expand_runs (l : List α) : expand (runs l) = l := by
  induction l with
  | nil => rfl
  | cons a l ih =>
    cases l with
    | nil => rfl
    | cons b l =>
      obtain ⟨n, rest, h⟩ := runs_cons_shape b l
      rw [runs, h]
      rw [h] at ih
      by_cases hab : a = b
      · subst hab
        simp only [if_true]
        simp only [expand, List.flatMap_cons, List.replicate_succ, List.cons_append] at ih ⊢
        rw [ih]
      · simp only [if_neg hab]
        simp only [expand, List.flatMap_cons, List.replicate_succ, List.cons_append,
          List.replicate_zero, List.nil_append] at ih ⊢
        rw [ih]

theorem runs_count_pos (l : List α) : ∀ r ∈ runs l, 1 ≤ r.1 := by
  induction l with
  | nil => simp [runs]
  | cons a l ih =>
    cases l with
    | nil => simp [runs]
    | cons b l =>
      obtain ⟨n, rest, h⟩ := runs_cons_shape b l
      rw [h] at ih
      rw [runs, h]
      by_cases hab : a = b
      · subst hab
        simp only [if_true]
        intro r hr
        rcases List.mem_cons.1 hr with h1 | h1
        · subst h1; simp
        · exact ih r (List.mem_cons_of_mem _ h1)
      · simp only [if_neg hab]
        intro r hr
        rcases List.mem_cons.1 hr with h1 | h1
        · subst h1; simp
        · exact ih r h1

theorem runs_chain (l : List α) : List.Chain' (fun r s => r.2 ≠ s.2) (runs l) := by
  induction l with
  | nil => simp [runs]
  | cons a l ih =>
    cases l with
    | nil => simp [runs]
    | cons b l =>
      obtain ⟨n, rest, h⟩ := runs_cons_shape b l
      rw [h] at ih
      rw [runs, h]
      by_cases hab : a = b
      · subst hab
        simp only [if_true]
        cases rest with
        | nil => simp
        | cons s rest =>
          rw [List.chain'_cons] at ih ⊢
          exact ih
      · simp only [if_neg hab]
        exact List.chain'_cons.2 ⟨hab, ih⟩

theorem runs_count_sum (l : List α) : ((runs l).map fun r => r.1).sum = l.length := by
  have h := congrArg List.length (expand_runs l)
  rw [← h]
  generalize runs l = rs
  induction rs with
  | nil => rfl
  | cons r rs ih => simp [expand, List.flatMap_cons] at ih ⊢; omega

theorem runs_count_le (l : List α) : ∀ r ∈ runs l, r.1 ≤ l.length := by
  intro r hr
  rw [← runs_count_sum l]
  exact List.single_le_sum (by simp) _ (List.mem_map_of_mem _ hr)

end Runs

end capture_decoder

namespace lvgl_adapter
open capture_decoder

/-! ## The inner loop of `capture_buffer` -/

theorem scan_pixel_first (st : Pending) (p : lv_color_t) (h : st.pending_pixels_count = 0) :
    scan_pixel st p = { st with pending_pixels_count := 1, pending_pixel_color := p } := by
  simp [scan_pixel, h]

theorem scan_pixel_same (st : Pending) (p : lv_color_t) (h : st.pending_pixels_count ≠ 0)
    (hc : st.pending_pixel_color = p) :
    scan_pixel st p =
      { st with pending_pixels_count := (st.pending_pixels_count + 1) % 65536 } := by
  simp [scan_pixel, h, hc]

theorem scan_pixel_other (st : Pending) (p : lv_color_t) (h : st.pending_pixels_count ≠ 0)
    (hc : st.pending_pixel_color ≠ p) :
    scan_pixel st p =
      { pending_pixels_count := 1, pending_pixel_color := p,
        out := st.out ++ printf_run st.pending_pixels_count st.pending_pixel_color } := by
  simp [scan_pixel, h, hc]

theorem tokens_text_cons (r : Nat × lv_color_t) (rs : List (Nat × lv_color_t)) :
    tokens_text (r :: rs) = printf_run r.1 r.2 ++ tokens_text rs := by
  simp [tokens_text]

/-- With a run pending and no counter overflow ahead, the loop prints the
maximal runs of the pending pixels followed by the pixels still to read. -/
theorem scan_pending (l : List lv_color_t) :
    ∀ st : Pending, 1 ≤ st.pending_pixels_count →
      st.pending_pixels_count + l.length ≤ 65535 →
      flush_pending (l.foldl scan_pixel st) =
        st.out ++ tokens_text
          (runs (List.replicate st.pending_pixels_count st.pending_pixel_color ++ l)) := by
  induction l with
  | nil =>
    intro st h1 _
    obtain ⟨k, hk⟩ : ∃ k, st.pending_pixels_count = k + 1 := ⟨st.pending_pixels_count - 1, by omega⟩
    have hr := runs_replicate_append k st.pending_pixel_color [] (by simp)
    simp only [List.foldl, flush_pending, hk] at hr ⊢
    rw [hr]
    simp [runs, tokens_text]
  | cons p l ih =>
    intro st h1 hlen
    simp only [List.length_cons] at hlen
    have hne : st.pending_pixels_count ≠ 0 := by omega
    obtain ⟨k, hk⟩ : ∃ k, st.pending_pixels_count = k + 1 := ⟨st.pending_pixels_count - 1, by omega⟩
    by_cases hc : st.pending_pixel_color = p
    · have hmod : (st.pending_pixels_count + 1) % 65536 = st.pending_pixels_count + 1 :=
        Nat.mod_eq_of_lt (by omega)
      rw [List.foldl, scan_pixel_same st p hne hc, hmod, ih _ (by simp) (by simp only; omega)]
      simp only
      rw [List.replicate_succ', hc]
      simp
    · rw [List.foldl, scan_pixel_other st p hne hc, ih _ (by simp) (by simp only; omega)]
      have hr := runs_replicate_append k st.pending_pixel_color (p :: l)
        (by simpa using fun h => hc h.symm)
      simp only [hk] at hr ⊢
      rw [hr, tokens_text_cons]
      simp

/-- From the initial state of a row, with no counter overflow possible, the
loop prints the maximal runs of the pixels it reads. -/
theorem scan_from_start (l : List lv_color_t) (hl : l.length ≤ 65535) :
    flush_pending
        (l.foldl scan_pixel { pending_pixels_count := 0, pending_pixel_color := 0, out := [] }) =
      tokens_text (runs l) := by
  cases l with
  | nil => rfl
  | cons p l =>
    simp only [List.length_cons] at hl
    rw [List.foldl, scan_pixel_first _ p rfl, scan_pending l _ (by simp) (by simp; omega)]
    simp

/-- A run of one colour that keeps the counter below `2^16` only counts:
nothing is printed. -/
theorem scan_replicate (n : Nat) (c : lv_color_t) :
    ∀ st : Pending, 1 ≤ st.pending_pixels_count → st.pending_pixel_color = c →
      st.pending_pixels_count + n ≤ 65535 →
      (List.replicate n c).foldl scan_pixel st =
        { st with pending_pixels_count := st.pending_pixels_count + n } := by
  induction n with
  | zero => intro st _ _ _; rfl
  | succ n ih =>
    intro st h1 hc h2
    have hne : st.pending_pixels_count ≠ 0 := by omega
    have hmod : (st.pending_pixels_count + 1) % 65536 = st.pending_pixels_count + 1 :=
      Nat.mod_eq_of_lt (by omega)
    have hih := ih { st with pending_pixels_count := st.pending_pixels_count + 1 }
      (by simp) hc (by simp only; omega)
    rw [List.replicate_succ, List.foldl, scan_pixel_same st c hne hc, hmod, hih]
    simp only [Nat.add_assoc, Nat.add_comm 1 n]

/-- A row of `2^16` pixels of one colour wraps the counter to 0: the row prints
no run token. -/
theorem scan_wrap (n : Nat) (hn : n = 65534) (c : lv_color_t) :
    flush_pending
        ((List.replicate (n + 1 + 1) c).foldl scan_pixel
          { pending_pixels_count := 0, pending_pixel_color := 0, out := [] }) = [] := by
  have hfirst : (List.replicate (n + 1) c).foldl scan_pixel
      { pending_pixels_count := 0, pending_pixel_color := 0, out := [] } =
      { pending_pixels_count := 1 + n, pending_pixel_color := c, out := [] } := by
    rw [List.replicate_succ, List.foldl, scan_pixel_first _ c rfl]
    exact scan_replicate n c { pending_pixels_count := 1, pending_pixel_color := c, out := [] }
      (by simp) rfl (by simp only; omega)
  have h1 : 1 + n ≠ 0 := by omega
  have h2 : (1 + n + 1) % 65536 = 0 := by subst hn; rfl
  rw [List.replicate_succ', List.foldl_append, hfirst]
  simp only [List.foldl]
  rw [scan_pixel_same _ c h1 rfl]
  simp [flush_pending, h2]

theorem row_tokens_text_eq (area : lv_area_t) (bfr : List lv_color_t) (y : Nat)
    (hw : w_pixels area ≤ 65535) :
    row_tokens_text area bfr y = tokens_text (runs (scanned_pixels area bfr y)) := by
  unfold row_tokens_text scan_row
  apply scan_from_start
  simp [scanned_pixels]
  omega

/-- Within a buffer of `w * h` pixels that a `uint32_t` can index, the pixels
read for row `y` are `bfr[y*w .. y*w + w - 1]`. -/
theorem scanned_pixels_eq (area : lv_area_t) (bfr : List lv_color_t) (y : Nat)
    (hlen : bfr.length = (w_pixels area).toNat * (h_pixels area).toNat)
    (h32 : bfr.length ≤ 2 ^ 32) (hy : y < (h_pixels area).toNat) :
    scanned_pixels area bfr y = buffer_row bfr (w_pixels area).toNat y := by
  unfold scanned_pixels
  generalize (w_pixels area).toNat = w at *
  generalize (h_pixels area).toNat = h at *
  have hrow : y * w + w ≤ w * h := by
    have : (y + 1) * w ≤ h * w := Nat.mul_le_mul_right _ hy
    nlinarith
  apply List.ext_getElem
  · simp only [List.length_map, List.length_range, buffer_row, List.length_take,
      List.length_drop]
    omega
  · intro x h1 h2
    have hx : x < w := by simpa using h1
    have hidx : (y * w + x) % 2 ^ 32 = y * w + x := Nat.mod_eq_of_lt (by omega)
    have hin : y * w + x < bfr.length := by omega
    simp only [List.getElem_map, List.getElem_range, read_pixel, hidx,
      List.getD_eq_getElem _ _ hin, buffer_row, List.getElem_take, List.getElem_drop]


/-! ## The characters of the printed text -/

theorem comma_not_digit : is_digit ',' = false := by decide

theorem colon_not_digit : is_digit ':' = false := by decide

theorem newline_not_digit : is_digit '\n' = false := by decide

theorem not_mem_toDigits (s : Char) (hs : is_digit s = false) (b : Nat) (hb : 0 < b)
    (hb16 : b ≤ 16) (n : Nat) : s ∉ Nat.toDigits b n := by
  intro h
  rw [toDigits_digits b hb hb16 n s h] at hs
  exact absurd hs (by decide)

theorem not_mem_printf_d (s : Char) (hs : is_digit s = false) (hm : s ≠ '-') (v : Int) :
    s ∉ printf_d v := by
  unfold printf_d
  split
  · simp only [List.mem_cons, not_or]
    exact ⟨hm, not_mem_toDigits s hs 10 (by omega) (by omega) _⟩
  · exact not_mem_toDigits s hs 10 (by omega) (by omega) _

theorem not_mem_printf_hu (s : Char) (hs : is_digit s = false) (n : Nat) : s ∉ printf_hu n :=
  not_mem_toDigits s hs 10 (by omega) (by omega) _

theorem not_mem_printf_hx (s : Char) (hs : is_digit s = false) (n : Nat) : s ∉ printf_hx n :=
  not_mem_toDigits s hs 16 (by omega) (by omega) _

theorem newline_not_mem_header (area : lv_area_t) (y : Nat) : '\n' ∉ printf_header area y := by
  have h := fun v => not_mem_printf_d '\n' newline_not_digit (by decide) v
  simp [printf_header, h]

theorem newline_not_mem_tokens (rs : List (Nat × lv_color_t)) : '\n' ∉ tokens_text rs := by
  have h1 := fun v => not_mem_printf_hu '\n' newline_not_digit v
  have h2 := fun v => not_mem_printf_hx '\n' newline_not_digit v
  simp [tokens_text, printf_run, h1, h2]

theorem tokens_text_shape (rs : List (Nat × lv_color_t)) :
    tokens_text rs = [] ∨ ∃ r, tokens_text rs = ',' :: r := by
  cases rs with
  | nil => exact Or.inl rfl
  | cons r rs => exact Or.inr ⟨_, by rw [tokens_text_cons, printf_run]; rfl⟩

/-- Whatever the row, what the inner loop and the final flush print is a
sequence of run tokens appended to what was printed before. -/
theorem scan_prints_tokens (l : List lv_color_t) :
    ∀ st : Pending, ∃ rs, flush_pending (l.foldl scan_pixel st) = st.out ++ tokens_text rs := by
  induction l with
  | nil =>
    intro st
    by_cases h : st.pending_pixels_count > 0
    · exact ⟨[(st.pending_pixels_count, st.pending_pixel_color)], by
        simp [flush_pending, h, tokens_text]⟩
    · exact ⟨[], by simp [flush_pending, h, tokens_text]⟩
  | cons p l ih =>
    intro st
    rw [List.foldl]
    by_cases h0 : st.pending_pixels_count = 0
    · rw [scan_pixel_first st p h0]
      exact ih _
    · by_cases hc : st.pending_pixel_color = p
      · rw [scan_pixel_same st p h0 hc]
        exact ih _
      · rw [scan_pixel_other st p h0 hc]
        obtain ⟨rs, hrs⟩ := ih
          { pending_pixels_count := 1, pending_pixel_color := p,
            out := st.out ++ printf_run st.pending_pixels_count st.pending_pixel_color }
        exact ⟨(st.pending_pixels_count, st.pending_pixel_color) :: rs, by
          rw [hrs, tokens_text_cons]; simp⟩

theorem row_tokens_text_tokens (area : lv_area_t) (bfr : List lv_color_t) (y : Nat) :
    ∃ rs, row_tokens_text area bfr y = tokens_text rs := by
  obtain ⟨rs, h⟩ := scan_prints_tokens (scanned_pixels area bfr y)
    { pending_pixels_count := 0, pending_pixel_color := 0, out := [] }
  exact ⟨rs, by simpa [row_tokens_text, scan_row] using h⟩

/-- The lines of the capture text: line `y` is the header of row `y` followed
by its run tokens. -/
theorem text_lines_capture_buffer (area : lv_area_t) (bfr : List lv_color_t) :
    text_lines (capture_buffer area bfr) =
      ((List.range (h_pixels area).toNat).map fun y =>
        printf_header area y ++ row_tokens_text area bfr y, []) := by
  have h : capture_buffer area bfr =
      ((List.range (h_pixels area).toNat).map fun y =>
        printf_header area y ++ row_tokens_text area bfr y).flatMap fun l => l ++ ['\n'] := by
    have hrow : capture_row area bfr = fun y =>
        (printf_header area y ++ row_tokens_text area bfr y) ++ ['\n'] := by
      funext y; simp [capture_row]
    rw [capture_buffer, hrow, List.flatMap_map]
  rw [h]
  apply text_lines_flatMap
  intro l hl
  obtain ⟨y, _, rfl⟩ := List.mem_map.1 hl
  obtain ⟨rs, hrs⟩ := row_tokens_text_tokens area bfr y
  rw [hrs]
  simp [newline_not_mem_header, newline_not_mem_tokens]

/-! ## Decoding a printed line -/

theorem parse_run_printed (n c : Nat) :
    parse_run (printf_hu n ++ ':' :: printf_hx c) = some (n % 65536, c % 65536) := by
  unfold parse_run
  rw [split_on_piece ':' _ _ (not_mem_printf_hu ':' colon_not_digit n),
    split_on_last ':' _ (not_mem_printf_hx ':' colon_not_digit c)]
  simp only [printf_hu, printf_hx, parse_nat_toDigits 10 (by omega) (by omega),
    parse_nat_toDigits 16 (by omega) (by omega)]

theorem map_all_map {α β γ : Type} (f : β → Option γ) (h : α → β) (g : α → γ) (l : List α)
    (hf : ∀ a ∈ l, f (h a) = some (g a)) : map_all f (l.map h) = some (l.map g) := by
  induction l with
  | nil => rfl
  | cons a as ih =>
    have h1 := hf a (by simp)
    have h2 := ih fun b hb => hf b (List.mem_cons_of_mem _ hb)
    simp [map_all, h1, h2]

/-- A printed line decodes to its header fields and the expansion of its run
tokens, the counts and colours read as 16-bit values. -/
theorem decode_line_printed (area : lv_area_t) (y : Nat) (rs : List (Nat × lv_color_t)) :
    decode_line (printf_header area y ++ tokens_text rs) =
      some ⟨area.x1, area.y1 + y, w_pixels area,
        expand (rs.map fun r => (r.1 % 65536, r.2.val % 65536))⟩ := by
  have hcd := fun v => not_mem_printf_d ',' comma_not_digit (by decide) v
  have hfield : ∀ f ∈ printf_d (area.y1 + y) :: printf_d (w_pixels area) ::
      rs.map (fun r => printf_hu r.1 ++ ':' :: printf_hx r.2.val), ',' ∉ f := by
    intro f hf
    simp only [List.mem_cons, List.mem_map] at hf
    rcases hf with rfl | rfl | ⟨r, _, rfl⟩
    · exact hcd _
    · exact hcd _
    · have h1 := not_mem_printf_hu ',' comma_not_digit r.1
      have h2 := not_mem_printf_hx ',' comma_not_digit r.2.val
      simp [h1, h2]
  have htext : printf_header area y ++ tokens_text rs =
      '#' :: (printf_d area.x1 ++
        (printf_d (area.y1 + y) :: printf_d (w_pixels area) ::
          rs.map (fun r => printf_hu r.1 ++ ':' :: printf_hx r.2.val)).flatMap
            fun f => ',' :: f) := by
    simp [printf_header, tokens_text, printf_run, List.flatMap_map]
  rw [htext]
  unfold decode_line
  simp only []
  rw [split_on_fields ',' _ hfield _ (hcd _)]
  simp only [parse_int_printf_d]
  rw [map_all_map parse_run _ (fun r => (r.1 % 65536, r.2.val % 65536)) rs
    (fun r _ => parse_run_printed r.1 r.2.val)]


/-! ## Lemmas on rows and buffers -/

theorem buffer_rows_flatten (w h : Nat) :
    ∀ bfr : List lv_color_t, bfr.length = w * h →
      (List.range h).flatMap (buffer_row bfr w) = bfr := by
  induction h with
  | zero => intro bfr hlen; simp at hlen; simp [hlen]
  | succ h ih =>
    intro bfr hlen
    have hd : (bfr.drop w).length = w * h := by
      simp only [List.length_drop, hlen]
      rw [Nat.mul_succ]; omega
    have hrows : ∀ y, buffer_row bfr w (y + 1) = buffer_row (bfr.drop w) w y := by
      intro y
      simp only [buffer_row, List.drop_drop]
      congr 2
      rw [Nat.succ_mul]; omega
    rw [List.range_succ_eq_map, List.flatMap_cons, List.flatMap_map]
    have : (fun y => buffer_row bfr w (Nat.succ y)) = buffer_row (bfr.drop w) w := by
      funext y; exact hrows y
    simp only [Function.comp_def] at *
    rw [this, ih _ hd]
    simp [buffer_row]

theorem expand_map_val (rs : List (Nat × lv_color_t)) :
    expand (rs.map fun r => (r.1, r.2.val)) = (expand rs).map Fin.val := by
  induction rs with
  | nil => rfl
  | cons r rs ih =>
    simp only [expand, List.map_cons, List.flatMap_cons, List.map_append, List.map_replicate]
      at ih ⊢
    rw [ih]

theorem printed_runs_eq (rs : List (Nat × lv_color_t)) (h : ∀ r ∈ rs, r.1 ≤ 65535) :
    (rs.map fun r => (r.1 % 65536, r.2.val % 65536)) = rs.map fun r => (r.1, r.2.val) := by
  apply List.map_congr_left
  intro r hr
  have h1 : r.1 % 65536 = r.1 := Nat.mod_eq_of_lt (by have := h r hr; omega)
  have h2 : r.2.val % 65536 = r.2.val := Nat.mod_eq_of_lt (by have := r.2.isLt; omega)
  rw [h1, h2]

theorem tokens_text_explicit (rs : List (Nat × lv_color_t)) (h : ∀ r ∈ rs, r.1 ≤ 65535) :
    tokens_text rs =
      rs.flatMap fun r => ',' :: Nat.toDigits 10 r.1 ++ ':' :: Nat.toDigits 16 r.2.val := by
  induction rs with
  | nil => rfl
  | cons r rs ih =>
    have h1 : r.1 % 65536 = r.1 := Nat.mod_eq_of_lt (by have := h r (by simp); omega)
    have h2 : r.2.val % 65536 = r.2.val := Nat.mod_eq_of_lt (by have := r.2.isLt; omega)
    rw [tokens_text_cons, ih fun s hs => h s (List.mem_cons_of_mem _ hs)]
    simp [printf_run, printf_hu, printf_hx, h1, h2]

theorem buffer_row_length (area : lv_area_t) (bfr : List lv_color_t) (y : Nat)
    (hlen : bfr.length = (w_pixels area).toNat * (h_pixels area).toNat)
    (hy : y < (h_pixels area).toNat) :
    (buffer_row bfr (w_pixels area).toNat y).length = (w_pixels area).toNat := by
  generalize (w_pixels area).toNat = w at *
  generalize (h_pixels area).toNat = h at *
  have hrow : y * w + w ≤ w * h := by
    have : (y + 1) * w ≤ h * w := Nat.mul_le_mul_right _ hy
    nlinarith
  simp only [buffer_row, List.length_take, List.length_drop]
  omega

/-- The run tokens of a row no wider than the counter's range are the maximal
runs of the row's slice of the buffer. -/
theorem row_tokens_text_runs (area : lv_area_t) (bfr : List lv_color_t) (y : Nat)
    (hw : w_pixels area ≤ 65535)
    (hlen : bfr.length = (w_pixels area).toNat * (h_pixels area).toNat)
    (h32 : bfr.length ≤ 2 ^ 32) (hy : y < (h_pixels area).toNat) :
    row_tokens_text area bfr y =
      tokens_text (runs (buffer_row bfr (w_pixels area).toNat y)) := by
  rw [row_tokens_text_eq area bfr y hw, scanned_pixels_eq area bfr y hlen h32 hy]

theorem runs_count_le_of_width (area : lv_area_t) (bfr : List lv_color_t) (y : Nat)
    (hw : w_pixels area ≤ 65535)
    (hlen : bfr.length = (w_pixels area).toNat * (h_pixels area).toNat)
    (hy : y < (h_pixels area).toNat) :
    ∀ r ∈ runs (buffer_row bfr (w_pixels area).toNat y), r.1 ≤ 65535 := by
  intro r hr
  have h1 := runs_count_le _ r hr
  rw [buffer_row_length area bfr y hlen hy] at h1
  omega

/-- The capture text of a region one row high is the text of that row. -/
theorem capture_buffer_one_row (area : lv_area_t) (bfr : List lv_color_t)
    (hh : (h_pixels area).toNat = 1) :
    capture_buffer area bfr = capture_row area bfr 0 := by
  rw [capture_buffer, hh]
  simp [List.range_succ]

/-- The capture text of the full-width one-row region filled with one colour,
the buffer length written `n + 2`: the header alone. -/
theorem capture_wide_uniform_aux (n : Nat) (hn : n = 65534) (c : lv_color_t) :
    capture_buffer ⟨-32768, 0, 32767, 0⟩ (List.replicate (n + 1 + 1) c) =
      "#-32768,0,65536\n".toList := by
  have hw : (w_pixels ⟨-32768, 0, 32767, 0⟩).toNat = n + 1 + 1 := by subst hn; decide
  have hh : (h_pixels ⟨-32768, 0, 32767, 0⟩).toNat = 1 := by decide
  have hpx : scanned_pixels ⟨-32768, 0, 32767, 0⟩ (List.replicate (n + 1 + 1) c) 0 =
      List.replicate (n + 1 + 1) c := by
    rw [scanned_pixels_eq _ _ 0 (by rw [hw, hh, List.length_replicate, Nat.mul_one])
      (by rw [List.length_replicate, hn]; decide) (by rw [hh]; omega), hw]
    rw [buffer_row, Nat.zero_mul, List.drop_zero, List.take_of_length_le]
    rw [List.length_replicate]
  have htok : row_tokens_text ⟨-32768, 0, 32767, 0⟩ (List.replicate (n + 1 + 1) c) 0 = [] := by
    rw [row_tokens_text, scan_row, hpx]
    exact scan_wrap n hn c
  rw [capture_buffer_one_row _ _ hh, capture_row, htok]
  decide

/-- The capture text of the full-width one-row region filled with one colour:
the header alone. -/
theorem capture_wide_uniform (c : lv_color_t) :
    capture_buffer ⟨-32768, 0, 32767, 0⟩ (List.replicate 65536 c) =
      "#-32768,0,65536\n".toList :=
  capture_wide_uniform_aux 65534 rfl c


/-! ## The flush callback and the touch callback -/

/-- Line `y` of the capture text is the header of row `y` followed by the run
tokens of that row. -/
theorem capture_line (area : lv_area_t) (bfr : List lv_color_t) (y : Nat)
    (hy : y < (h_pixels area).toNat) :
    (text_lines (capture_buffer area bfr)).1[y]? =
      some (printf_header area y ++ row_tokens_text area bfr y) := by
  rw [text_lines_capture_buffer]
  simp [hy]

theorem flush_trace (s : State) (area : lv_area_t) (color_p : List lv_color_t) :
    (my_flush_cb s area color_p).trace =
      s.trace ++ (Effect.led2_on ::
        ((if s.screen_capture_enabled then (capture_buffer area color_p).map Effect.putchar
          else []) ++
        [Effect.render_buffer area.x1 area.y1 area.x2 area.y2 color_p,
          Effect.lv_disp_flush_ready, Effect.led2_off])) := by
  cases h : s.screen_capture_enabled <;>
    simp [my_flush_cb, LED2_ON, LED2_OFF, State.emit, State.printf, h]

theorem filter_putchar (text : List Char) :
    (text.map Effect.putchar).filter Effect.is_flush_step = [] := by
  induction text with
  | nil => rfl
  | cons c cs ih => simp [Effect.is_flush_step, ih]

theorem count_putchar (text : List Char) :
    (text.map Effect.putchar).count Effect.lv_disp_flush_ready = 0 := by
  induction text with
  | nil => rfl
  | cons c cs ih => simpa [List.count_cons] using ih

/-- C3. Every call of `my_flush_cb`, whatever the capture flag and whatever the
region, appends to the trace a sequence of effects in which the calls of
`render_buffer` and the buffer-free signals are exactly one `render_buffer`
call followed by one `lv_disp_flush_ready`. -/
theorem my_flush_cb_render_then_ready (s : State) (area : lv_area_t)
    (color_p : List lv_color_t) :
    ∃ effects, (my_flush_cb s area color_p).trace = s.trace ++ effects ∧
      effects.filter Effect.is_flush_step =
        [Effect.render_buffer area.x1 area.y1 area.x2 area.y2 color_p,
          Effect.lv_disp_flush_ready] := by
  refine ⟨_, flush_trace s area color_p, ?_⟩
  cases s.screen_capture_enabled
  · simp [Effect.is_flush_step]
  · simp [Effect.is_flush_step, List.filter_append, filter_putchar]

/-- C8, as it fails: with capture disabled, a flush of a 1x1 region has two
effects besides the `render_buffer` call and the buffer-free signal, the
indicator LED being switched on before them and off after them. -/
theorem my_flush_cb_led_counterexample :
    (my_flush_cb ⟨false, []⟩ ⟨0, 0, 0, 0⟩ [3]).trace =
        [Effect.led2_on, Effect.render_buffer 0 0 0 0 [3], Effect.lv_disp_flush_ready,
          Effect.led2_off] ∧
      (my_flush_cb ⟨false, []⟩ ⟨0, 0, 0, 0⟩ [3]).trace ≠
        [Effect.render_buffer 0 0 0 0 [3], Effect.lv_disp_flush_ready] := by
  decide

/-- C8, amended. With capture disabled, `my_flush_cb` leaves the text of the
diagnostic stream and the flag as they were, and its effects are exactly: LED2
on, one `render_buffer` call with the bounds and the buffer of the region, the
buffer-free signal, LED2 off. In every state, `start_screen_capture` sets the
flag and prints `###BEGIN screen capture`, `stop_screen_capture` clears it and
prints `###END screen capture`, each followed by a line break. -/
theorem my_flush_cb_capture_off (s : State) (area : lv_area_t) (color_p : List lv_color_t)
    (hoff : s.screen_capture_enabled = false) :
    ((my_flush_cb s area color_p).trace =
        s.trace ++ [Effect.led2_on,
          Effect.render_buffer area.x1 area.y1 area.x2 area.y2 color_p,
          Effect.lv_disp_flush_ready, Effect.led2_off] ∧
      stdout_text (my_flush_cb s area color_p).trace = stdout_text s.trace ∧
      (my_flush_cb s area color_p).screen_capture_enabled = false) ∧
    (∀ t : State, (start_screen_capture t).screen_capture_enabled = true ∧
      (start_screen_capture t).trace =
        t.trace ++ "###BEGIN screen capture\n".toList.map Effect.putchar) ∧
    (∀ t : State, (stop_screen_capture t).screen_capture_enabled = false ∧
      (stop_screen_capture t).trace =
        t.trace ++ "###END screen capture\n".toList.map Effect.putchar) := by
  have hst : ∀ a b : List Effect, (∀ e ∈ b, ∀ c, e ≠ Effect.putchar c) →
      stdout_text (a ++ b) = stdout_text a := by
    intro a b hb
    induction a with
    | nil =>
      induction b with
      | nil => rfl
      | cons e es ih =>
        have h1 := hb e (by simp)
        have h2 := ih fun e he => hb e (List.mem_cons_of_mem _ he)
        cases e <;> first | exact absurd rfl (h1 _) | simpa [stdout_text] using h2
    | cons e es ih => cases e <;> simp_all [stdout_text]
  refine ⟨⟨?_, ?_, ?_⟩, fun t => ⟨rfl, rfl⟩, fun t => ⟨rfl, rfl⟩⟩
  · rw [flush_trace, hoff]; simp
  · rw [flush_trace, hoff]
    apply hst
    intro e he c
    simp at he
    rcases he with rfl | rfl | rfl | rfl <;> simp
  · simp [my_flush_cb, LED2_ON, LED2_OFF, State.emit, State.printf, hoff]

/-- Instance of `my_flush_cb_capture_off`: capture disabled, one character
already on the stream, a 2x1 region. -/
theorem my_flush_cb_capture_off_witness :
    (⟨false, [Effect.putchar 'a']⟩ : State).screen_capture_enabled = false ∧
    (((my_flush_cb ⟨false, [Effect.putchar 'a']⟩ ⟨0, 0, 1, 0⟩ [3, 4]).trace =
        [Effect.putchar 'a'] ++ [Effect.led2_on,
          Effect.render_buffer 0 0 1 0 [3, 4],
          Effect.lv_disp_flush_ready, Effect.led2_off] ∧
      stdout_text (my_flush_cb ⟨false, [Effect.putchar 'a']⟩ ⟨0, 0, 1, 0⟩ [3, 4]).trace =
        stdout_text [Effect.putchar 'a'] ∧
      (my_flush_cb ⟨false, [Effect.putchar 'a']⟩ ⟨0, 0, 1, 0⟩ [3, 4]).screen_capture_enabled =
        false) ∧
    (∀ t : State, (start_screen_capture t).screen_capture_enabled = true ∧
      (start_screen_capture t).trace =
        t.trace ++ "###BEGIN screen capture\n".toList.map Effect.putchar) ∧
    (∀ t : State, (stop_screen_capture t).screen_capture_enabled = false ∧
      (stop_screen_capture t).trace =
        t.trace ++ "###END screen capture\n".toList.map Effect.putchar)) :=
  ⟨rfl, my_flush_cb_capture_off ⟨false, [Effect.putchar 'a']⟩ ⟨0, 0, 1, 0⟩ [3, 4] rfl⟩

/-- A sample coordinate of at most 32767 is stored unchanged. -/
theorem to_lv_coord_small (v : Nat) (h : v ≤ 32767) : to_lv_coord v = (v : Int) := by
  have h1 : v % 65536 = v := Nat.mod_eq_of_lt (by omega)
  have h2 : v % 65536 < 32768 := by omega
  rw [to_lv_coord, if_pos h2, h1]

/-- C9, as it fails: the sample (65535, 40000, pressed) leaves the point at
(-1, -25536), not at (65535, 40000). -/
theorem my_touch_read_cb_wrap_counterexample :
    (my_touch_read_cb ⟨65535, 40000, true⟩
        ⟨⟨0, 0⟩, lv_indev_state_t.LV_INDEV_STATE_REL⟩).2.point = ⟨-1, -25536⟩ ∧
      (my_touch_read_cb ⟨65535, 40000, true⟩
        ⟨⟨0, 0⟩, lv_indev_state_t.LV_INDEV_STATE_REL⟩).2.point ≠ ⟨65535, 40000⟩ := by
  decide

/-- C9, amended. For every sample `touch_read` stores, `my_touch_read_cb`
returns false and leaves the state pressed exactly when the sample's flag is
set, released otherwise; it leaves each coordinate of the point at the
sample's coordinate whenever that coordinate is at most 32767, the largest
value of `lv_coord_t`. -/
theorem my_touch_read_cb_sample (sample : TouchSample) (data : lv_indev_data_t) :
    (my_touch_read_cb sample data).1 = false ∧
    (sample.x ≤ 32767 → (my_touch_read_cb sample data).2.point.x = (sample.x : Int)) ∧
    (sample.y ≤ 32767 → (my_touch_read_cb sample data).2.point.y = (sample.y : Int)) ∧
    ((my_touch_read_cb sample data).2.state = lv_indev_state_t.LV_INDEV_STATE_PR ↔
      sample.is_pressed = true) ∧
    ((my_touch_read_cb sample data).2.state = lv_indev_state_t.LV_INDEV_STATE_REL ↔
      sample.is_pressed = false) := by
  refine ⟨rfl, fun hx => ?_, fun hy => ?_, ?_, ?_⟩
  · exact to_lv_coord_small sample.x hx
  · exact to_lv_coord_small sample.y hy
  · cases h : sample.is_pressed <;> simp [my_touch_read_cb, h]
  · cases h : sample.is_pressed <;> simp [my_touch_read_cb, h]

/-- Instance of `my_touch_read_cb_sample`: a press at the bottom right pixel of
the 480x320 screen leaves the point at (479, 319), pressed. -/
theorem my_touch_read_cb_sample_witness :
    (my_touch_read_cb ⟨479, 319, true⟩
        ⟨⟨0, 0⟩, lv_indev_state_t.LV_INDEV_STATE_REL⟩).1 = false ∧
    (my_touch_read_cb ⟨479, 319, true⟩
        ⟨⟨0, 0⟩, lv_indev_state_t.LV_INDEV_STATE_REL⟩).2.point = ⟨479, 319⟩ ∧
    (my_touch_read_cb ⟨479, 319, true⟩
        ⟨⟨0, 0⟩, lv_indev_state_t.LV_INDEV_STATE_REL⟩).2.state =
      lv_indev_state_t.LV_INDEV_STATE_PR := by
  have h := my_touch_read_cb_sample ⟨479, 319, true⟩
    ⟨⟨0, 0⟩, lv_indev_state_t.LV_INDEV_STATE_REL⟩
  refine ⟨h.1, ?_, h.2.2.2.1.2 rfl⟩
  have hx := h.2.1 (by decide)
  have hy := h.2.2.1 (by decide)
  cases hp : (my_touch_read_cb ⟨479, 319, true⟩
    ⟨⟨0, 0⟩, lv_indev_state_t.LV_INDEV_STATE_REL⟩).2.point with
  | mk px py =>
    rw [hp] at hx hy
    simp only at hx hy
    rw [hx, hy]
    rfl

/-! ## The capture text -/

/-- C2. The capture text of every region is cut by its line breaks into exactly
`h_pixels` lines (none when `h_pixels` is not positive) with nothing after the
last line break, and line `y` is the header `#<x1>,<y1+y>,<w_pixels>` followed
either by nothing or by a comma, so that the width it declares is `w_pixels`. -/
theorem capture_buffer_lines (area : lv_area_t) (bfr : List lv_color_t) :
    ∃ lines, text_lines (capture_buffer area bfr) = (lines, []) ∧
      (lines.length : Int) = max (h_pixels area) 0 ∧
      ∀ y (hy : y < lines.length), ∃ rest,
        lines[y] =
          ('#' :: printf_d area.x1 ++ ',' :: printf_d (area.y1 + y) ++
            ',' :: printf_d (w_pixels area)) ++ rest ∧
        (rest = [] ∨ ∃ r, rest = ',' :: r) := by
  refine ⟨_, text_lines_capture_buffer area bfr, ?_, ?_⟩
  · simp only [List.length_map, List.length_range]
    omega
  · intro y hy
    obtain ⟨rs, hrs⟩ := row_tokens_text_tokens area bfr y
    refine ⟨tokens_text rs, ?_, tokens_text_shape rs⟩
    simp [hrs, printf_header]

/-- C1, as it fails: the full-width one-row region filled with colour 0 prints
its header and no run token, so the decoded row has no pixel although the row
of the buffer has 65536. -/
theorem round_trip_counterexample :
    decode (capture_buffer ⟨-32768, 0, 32767, 0⟩ (List.replicate 65536 0)) =
        some [⟨-32768, 0, 65536, []⟩] ∧
      (buffer_row (List.replicate 65536 (0 : lv_color_t)) 65536 0).length = 65536 := by
  refine ⟨?_, ?_⟩
  · rw [capture_wide_uniform 0]
    decide
  · rw [buffer_row, Nat.zero_mul, List.drop_zero, List.length_take, List.length_replicate]
    rfl

/-- C1, amended. For every region of width at most 65535 and every buffer of
`w_pixels * h_pixels` pixels within the range of the 32-bit pixel index,
decoding the capture text yields one row per row of the region, row `y`
carrying the header fields `x1`, `y1 + y`, `w_pixels` and the pixels
`bfr[y*w .. y*w + w - 1]`; the rows stacked in order are the buffer. -/
theorem capture_round_trip (area : lv_area_t) (bfr : List lv_color_t)
    (hw : w_pixels area ≤ 65535)
    (hlen : bfr.length = (w_pixels area).toNat * (h_pixels area).toNat)
    (h32 : bfr.length ≤ 2 ^ 32) :
    decode (capture_buffer area bfr) =
        some ((List.range (h_pixels area).toNat).map fun y =>
          ⟨area.x1, area.y1 + y, w_pixels area,
            (buffer_row bfr (w_pixels area).toNat y).map Fin.val⟩) ∧
      (List.range (h_pixels area).toNat).flatMap (buffer_row bfr (w_pixels area).toNat) =
        bfr := by
  refine ⟨?_, buffer_rows_flatten _ _ bfr hlen⟩
  unfold decode
  rw [text_lines_capture_buffer]
  simp only []
  apply map_all_map
  intro y hy
  have hy2 : y < (h_pixels area).toNat := List.mem_range.1 hy
  rw [row_tokens_text_runs area bfr y hw hlen h32 hy2, decode_line_printed,
    printed_runs_eq _ (runs_count_le_of_width area bfr y hw hlen hy2), expand_map_val,
    expand_runs]

/-- Instance of `capture_round_trip`: a 4x2 region at (-3,7) and its eight
pixels. -/
theorem capture_round_trip_witness :
    w_pixels ⟨-3, 7, 0, 8⟩ ≤ 65535 ∧
    ([5, 5, 9, 9, 255, 255, 255, 0] : List lv_color_t).length =
      (w_pixels ⟨-3, 7, 0, 8⟩).toNat * (h_pixels ⟨-3, 7, 0, 8⟩).toNat ∧
    ([5, 5, 9, 9, 255, 255, 255, 0] : List lv_color_t).length ≤ 2 ^ 32 ∧
    (decode (capture_buffer ⟨-3, 7, 0, 8⟩ [5, 5, 9, 9, 255, 255, 255, 0]) =
        some ((List.range (h_pixels ⟨-3, 7, 0, 8⟩).toNat).map fun y =>
          ⟨-3, 7 + y, w_pixels ⟨-3, 7, 0, 8⟩,
            (buffer_row [5, 5, 9, 9, 255, 255, 255, 0]
              (w_pixels ⟨-3, 7, 0, 8⟩).toNat y).map Fin.val⟩) ∧
      (List.range (h_pixels ⟨-3, 7, 0, 8⟩).toNat).flatMap
          (buffer_row [5, 5, 9, 9, 255, 255, 255, 0] (w_pixels ⟨-3, 7, 0, 8⟩).toNat) =
        [5, 5, 9, 9, 255, 255, 255, 0]) :=
  ⟨by decide, by decide, by decide,
    capture_round_trip ⟨-3, 7, 0, 8⟩ [5, 5, 9, 9, 255, 255, 255, 0]
      (by decide) (by decide) (by decide)⟩

/-- C4, as it fails: in the full-width one-row region filled with colour 7 the
row is one maximal run of 65536 pixels, and no token at all is printed after
the header. -/
theorem maximal_runs_counterexample :
    (text_lines (capture_buffer ⟨-32768, 0, 32767, 0⟩ (List.replicate 65536 7))).1 =
        ["#-32768,0,65536".toList] ∧
      runs (buffer_row (List.replicate 65536 (7 : lv_color_t)) 65536 0) = [(65536, 7)] := by
  refine ⟨?_, ?_⟩
  · rw [capture_wide_uniform 7]
    decide
  · rw [buffer_row, Nat.zero_mul, List.drop_zero, List.take_of_length_le
      (by rw [List.length_replicate])]
    have h := runs_replicate_append 65535 (7 : lv_color_t) [] (by simp)
    rw [List.append_nil] at h
    exact h

/-- C4, amended. For every row of a region of width at most 65535 (the buffer
holding `w_pixels * h_pixels` pixels within the range of the 32-bit index),
the line printed for the row is its header followed by one token
`,<count>:<colour in lower-case hex>` per maximal run of the row, left to
right: the runs expand to the row, each has a positive count, and no two
consecutive runs have the same colour. The region (0,0,2,0) with pixels
5, 5, 9 prints the single line `#0,0,3,2:5,1:9`. -/
theorem capture_row_maximal_runs (area : lv_area_t) (bfr : List lv_color_t) (y : Nat)
    (hw : w_pixels area ≤ 65535)
    (hlen : bfr.length = (w_pixels area).toNat * (h_pixels area).toNat)
    (h32 : bfr.length ≤ 2 ^ 32) (hy : y < (h_pixels area).toNat) :
    (text_lines (capture_buffer area bfr)).1[y]? =
        some (printf_header area y ++
          (runs (buffer_row bfr (w_pixels area).toNat y)).flatMap fun r =>
            ',' :: Nat.toDigits 10 r.1 ++ ':' :: Nat.toDigits 16 r.2.val) ∧
      expand (runs (buffer_row bfr (w_pixels area).toNat y)) =
        buffer_row bfr (w_pixels area).toNat y ∧
      (∀ r ∈ runs (buffer_row bfr (w_pixels area).toNat y), 1 ≤ r.1) ∧
      List.Chain' (fun r s => r.2 ≠ s.2) (runs (buffer_row bfr (w_pixels area).toNat y)) ∧
      capture_buffer ⟨0, 0, 2, 0⟩ [5, 5, 9] = "#0,0,3,2:5,1:9\n".toList := by
  refine ⟨?_, expand_runs _, runs_count_pos _, runs_chain _, by decide⟩
  rw [capture_line area bfr y hy, row_tokens_text_runs area bfr y hw hlen h32 hy,
    tokens_text_explicit _ (runs_count_le_of_width area bfr y hw hlen hy)]

/-- Instance of `capture_row_maximal_runs`: the 3x1 region at (0,0) with
pixels 5, 5, 9. -/
theorem capture_row_maximal_runs_witness :
    w_pixels ⟨0, 0, 2, 0⟩ ≤ 65535 ∧
    ([5, 5, 9] : List lv_color_t).length =
      (w_pixels ⟨0, 0, 2, 0⟩).toNat * (h_pixels ⟨0, 0, 2, 0⟩).toNat ∧
    ([5, 5, 9] : List lv_color_t).length ≤ 2 ^ 32 ∧
    0 < (h_pixels ⟨0, 0, 2, 0⟩).toNat ∧
    ((text_lines (capture_buffer ⟨0, 0, 2, 0⟩ [5, 5, 9])).1[0]? =
        some (printf_header ⟨0, 0, 2, 0⟩ 0 ++
          (runs (buffer_row [5, 5, 9] (w_pixels ⟨0, 0, 2, 0⟩).toNat 0)).flatMap fun r =>
            ',' :: Nat.toDigits 10 r.1 ++ ':' :: Nat.toDigits 16 r.2.val) ∧
      expand (runs (buffer_row [5, 5, 9] (w_pixels ⟨0, 0, 2, 0⟩).toNat 0)) =
        buffer_row [5, 5, 9] (w_pixels ⟨0, 0, 2, 0⟩).toNat 0 ∧
      (∀ r ∈ runs (buffer_row [5, 5, 9] (w_pixels ⟨0, 0, 2, 0⟩).toNat 0), 1 ≤ r.1) ∧
      List.Chain' (fun r s => r.2 ≠ s.2)
        (runs (buffer_row [5, 5, 9] (w_pixels ⟨0, 0, 2, 0⟩).toNat 0)) ∧
      capture_buffer ⟨0, 0, 2, 0⟩ [5, 5, 9] = "#0,0,3,2:5,1:9\n".toList) :=
  ⟨by decide, by decide, by decide, by decide,
    capture_row_maximal_runs ⟨0, 0, 2, 0⟩ [5, 5, 9] 0
      (by decide) (by decide) (by decide) (by decide)⟩

/-- C6, as it fails: a run of 65536 pixels of colour 5, the full-width one-row
region, is not printed as several tokens: the capture text is the header line
alone, and every pixel of the run is dropped. -/
theorem long_run_counterexample :
    capture_buffer ⟨-32768, 0, 32767, 0⟩ (List.replicate 65536 5) =
      "#-32768,0,65536\n".toList :=
  capture_wide_uniform 5

/-- C6, amended. For every row of a region of width at most 65535 (the buffer
holding `w_pixels * h_pixels` pixels within the range of the 32-bit index),
the tokens printed for the row are its maximal runs, each printed once with a
count between 1 and 65535, and the counts add up to the width of the row: no
pixel is dropped and no count is cut by the 16-bit counter. -/
theorem capture_row_counts (area : lv_area_t) (bfr : List lv_color_t) (y : Nat)
    (hw : w_pixels area ≤ 65535)
    (hlen : bfr.length = (w_pixels area).toNat * (h_pixels area).toNat)
    (h32 : bfr.length ≤ 2 ^ 32) (hy : y < (h_pixels area).toNat) :
    (text_lines (capture_buffer area bfr)).1[y]? =
        some (printf_header area y ++
          tokens_text (runs (buffer_row bfr (w_pixels area).toNat y))) ∧
      (∀ r ∈ runs (buffer_row bfr (w_pixels area).toNat y), 1 ≤ r.1 ∧ r.1 ≤ 65535) ∧
      ((runs (buffer_row bfr (w_pixels area).toNat y)).map fun r => r.1).sum =
        (w_pixels area).toNat := by
  refine ⟨?_, fun r hr => ⟨runs_count_pos _ r hr,
    runs_count_le_of_width area bfr y hw hlen hy r hr⟩, ?_⟩
  · rw [capture_line area bfr y hy, row_tokens_text_runs area bfr y hw hlen h32 hy]
  · rw [runs_count_sum, buffer_row_length area bfr y hlen hy]

/-- Instance of `capture_row_counts`: the second row of a 4x2 region. -/
theorem capture_row_counts_witness :
    w_pixels ⟨4, 2, 7, 3⟩ ≤ 65535 ∧
    ([1, 1, 1, 2, 8, 8, 8, 8] : List lv_color_t).length =
      (w_pixels ⟨4, 2, 7, 3⟩).toNat * (h_pixels ⟨4, 2, 7, 3⟩).toNat ∧
    ([1, 1, 1, 2, 8, 8, 8, 8] : List lv_color_t).length ≤ 2 ^ 32 ∧
    1 < (h_pixels ⟨4, 2, 7, 3⟩).toNat ∧
    ((text_lines (capture_buffer ⟨4, 2, 7, 3⟩ [1, 1, 1, 2, 8, 8, 8, 8])).1[1]? =
        some (printf_header ⟨4, 2, 7, 3⟩ 1 ++
          tokens_text (runs (buffer_row [1, 1, 1, 2, 8, 8, 8, 8]
            (w_pixels ⟨4, 2, 7, 3⟩).toNat 1))) ∧
      (∀ r ∈ runs (buffer_row [1, 1, 1, 2, 8, 8, 8, 8] (w_pixels ⟨4, 2, 7, 3⟩).toNat 1),
        1 ≤ r.1 ∧ r.1 ≤ 65535) ∧
      ((runs (buffer_row [1, 1, 1, 2, 8, 8, 8, 8] (w_pixels ⟨4, 2, 7, 3⟩).toNat 1)).map
        fun r => r.1).sum = (w_pixels ⟨4, 2, 7, 3⟩).toNat) :=
  ⟨by decide, by decide, by decide, by decide,
    capture_row_counts ⟨4, 2, 7, 3⟩ [1, 1, 1, 2, 8, 8, 8, 8] 1
      (by decide) (by decide) (by decide) (by decide)⟩

/-- C7. For every row of width `W`, `1 ≤ W ≤ 65535`, that is `W` pixels of one
colour `c` (the buffer holding `w_pixels * h_pixels` pixels within the range
of the 32-bit index), the line printed for the row is its header followed by
the single token `,<W>:<c in hex>`. -/
theorem capture_row_uniform (area : lv_area_t) (bfr : List lv_color_t) (y : Nat)
    (c : lv_color_t) (hw1 : 1 ≤ w_pixels area) (hw : w_pixels area ≤ 65535)
    (hlen : bfr.length = (w_pixels area).toNat * (h_pixels area).toNat)
    (h32 : bfr.length ≤ 2 ^ 32) (hy : y < (h_pixels area).toNat)
    (hrow : buffer_row bfr (w_pixels area).toNat y = List.replicate (w_pixels area).toNat c) :
    (text_lines (capture_buffer area bfr)).1[y]? =
      some (printf_header area y ++
        (',' :: Nat.toDigits 10 (w_pixels area).toNat ++ ':' :: Nat.toDigits 16 c.val)) := by
  obtain ⟨k, hk⟩ : ∃ k, (w_pixels area).toNat = k + 1 :=
    ⟨(w_pixels area).toNat - 1, by omega⟩
  have hruns : runs (buffer_row bfr (w_pixels area).toNat y) = [((w_pixels area).toNat, c)] := by
    rw [hrow, hk]
    have h := runs_replicate_append k c [] (by simp)
    rw [List.append_nil] at h
    exact h
  rw [capture_line area bfr y hy, row_tokens_text_runs area bfr y hw hlen h32 hy, hruns,
    tokens_text_explicit _ (by intro r hr; simp at hr; subst hr; simp; omega)]
  simp

/-- Instance of `capture_row_uniform`: the second row of a 3x2 region, three
pixels of colour 9. -/
theorem capture_row_uniform_witness :
    1 ≤ w_pixels ⟨10, 20, 12, 21⟩ ∧ w_pixels ⟨10, 20, 12, 21⟩ ≤ 65535 ∧
    ([1, 2, 3, 9, 9, 9] : List lv_color_t).length =
      (w_pixels ⟨10, 20, 12, 21⟩).toNat * (h_pixels ⟨10, 20, 12, 21⟩).toNat ∧
    ([1, 2, 3, 9, 9, 9] : List lv_color_t).length ≤ 2 ^ 32 ∧
    1 < (h_pixels ⟨10, 20, 12, 21⟩).toNat ∧
    buffer_row [1, 2, 3, 9, 9, 9] (w_pixels ⟨10, 20, 12, 21⟩).toNat 1 =
      List.replicate (w_pixels ⟨10, 20, 12, 21⟩).toNat 9 ∧
    (text_lines (capture_buffer ⟨10, 20, 12, 21⟩ [1, 2, 3, 9, 9, 9])).1[1]? =
      some (printf_header ⟨10, 20, 12, 21⟩ 1 ++
        (',' :: Nat.toDigits 10 (w_pixels ⟨10, 20, 12, 21⟩).toNat ++
          ':' :: Nat.toDigits 16 (9 : lv_color_t).val)) :=
  ⟨by decide, by decide, by decide, by decide, by decide, by decide,
    capture_row_uniform ⟨10, 20, 12, 21⟩ [1, 2, 3, 9, 9, 9] 1 9
      (by decide) (by decide) (by decide) (by decide) (by decide) (by decide)⟩

/-- C5, as it fails: a region of width 0 and height 1 prints one line, the
header `#0,0,0`. -/
theorem empty_width_counterexample :
    w_pixels ⟨0, 0, -1, 0⟩ = 0 ∧
      capture_buffer ⟨0, 0, -1, 0⟩ [] = "#0,0,0\n".toList := by
  decide

/-- C5, amended. For every region of width 0 or height 0 the capture text is one
line per row of the region, each the header of its row with no run token; when
the height is 0 that is no text at all. On such a region `my_flush_cb` with
capture enabled appends effects among which the buffer-free signal occurs
exactly once. -/
theorem capture_empty_region (s : State) (area : lv_area_t) (bfr : List lv_color_t)
    (hempty : w_pixels area = 0 ∨ h_pixels area = 0)
    (hon : s.screen_capture_enabled = true) :
    text_lines (capture_buffer area bfr) =
      ((List.range (h_pixels area).toNat).map fun y => printf_header area y, []) ∧
    (h_pixels area = 0 → capture_buffer area bfr = []) ∧
    ∃ effects, (my_flush_cb s area bfr).trace = s.trace ++ effects ∧
      effects.count Effect.lv_disp_flush_ready = 1 := by
  refine ⟨?_, ?_, _, flush_trace s area bfr, ?_⟩
  · rw [text_lines_capture_buffer]
    rcases hempty with w0 | h0
    · have : ∀ y, row_tokens_text area bfr y = [] := by
        intro y
        simp [row_tokens_text, scan_row, scanned_pixels, w0, flush_pending]
      simp [this]
    · simp [h0]
  · intro h0
    simp [capture_buffer, h0]
  · rw [hon]
    simp [List.count_cons, List.count_append, count_putchar]

/-- Instance of `capture_empty_region`: a region of width 0 and height 2,
capture enabled. -/
theorem capture_empty_region_witness :
    (w_pixels ⟨5, 5, 4, 6⟩ = 0 ∨ h_pixels ⟨5, 5, 4, 6⟩ = 0) ∧
    (⟨true, []⟩ : State).screen_capture_enabled = true ∧
    (text_lines (capture_buffer ⟨5, 5, 4, 6⟩ []) =
      ((List.range (h_pixels ⟨5, 5, 4, 6⟩).toNat).map fun y =>
        printf_header ⟨5, 5, 4, 6⟩ y, []) ∧
    (h_pixels ⟨5, 5, 4, 6⟩ = 0 → capture_buffer ⟨5, 5, 4, 6⟩ [] = []) ∧
    ∃ effects, (my_flush_cb ⟨true, []⟩ ⟨5, 5, 4, 6⟩ []).trace = [] ++ effects ∧
      effects.count Effect.lv_disp_flush_ready = 1) :=
  ⟨by decide, rfl, capture_empty_region ⟨true, []⟩ ⟨5, 5, 4, 6⟩ [] (by decide) rfl⟩

end lvgl_adapter

namespace TimeHistogramScreen

/-! ## The scaling of the time histogram -/

theorem fold_max_ge (l : List Nat) :
    ∀ m, m ≤ l.foldl (fun max_ticks ticks => if ticks > max_ticks then ticks else max_ticks) m ∧
      ∀ t ∈ l,
        t ≤ l.foldl (fun max_ticks ticks => if ticks > max_ticks then ticks else max_ticks) m := by
  induction l with
  | nil => intro m; simp
  | cons a l ih =>
    intro m
    simp only [List.foldl, List.mem_cons]
    obtain ⟨h1, h2⟩ := ih (if a > m then a else m)
    have h3 : m ≤ (if a > m then a else m) ∧ a ≤ (if a > m then a else m) := by
      split <;> omega
    refine ⟨le_trans h3.1 h1, ?_⟩
    rintro t (rfl | ht)
    · exact le_trans h3.2 h1
    · exact h2 t ht

theorem fold_max_mem (l : List Nat) :
    ∀ m, l.foldl (fun max_ticks ticks => if ticks > max_ticks then ticks else max_ticks) m
      ∈ m :: l := by
  induction l with
  | nil => intro m; simp
  | cons a l ih =>
    intro m
    simp only [List.foldl]
    have h := ih (if a > m then a else m)
    rcases List.mem_cons.1 h with h1 | h1
    · rw [h1]
      split <;> simp
    · exact List.mem_cons_of_mem _ (List.mem_cons_of_mem _ h1)

theorem find_max_ticks_ge (buckets : List Nat) : ∀ t ∈ buckets, t ≤ find_max_ticks buckets := by
  cases buckets with
  | nil => simp
  | cons b rest =>
    intro t ht
    have h := fold_max_ge rest b
    rcases List.mem_cons.1 ht with rfl | h1
    · exact h.1
    · exact h.2 t h1

theorem find_max_ticks_mem (buckets : List Nat) (hne : buckets ≠ []) :
    find_max_ticks buckets ∈ buckets := by
  cases buckets with
  | nil => exact absurd rfl hne
  | cons b rest => exact fold_max_mem rest b

theorem scaled_le (max_ticks ticks : Nat) (h : ticks ≤ max_ticks) :
    (if max_ticks > 0 then ((ticks * 100) % 2 ^ 64) / max_ticks else 0) ≤ 100 := by
  split
  · apply Nat.div_le_of_le_mul
    have h1 : (ticks * 100) % 2 ^ 64 ≤ ticks * 100 := Nat.mod_le _ _
    nlinarith
  · omega

theorem point_value_le (max_ticks ticks : Nat) (h : ticks ≤ max_ticks) :
    point_value max_ticks ticks ≤ 100 := by
  have h1 := scaled_le max_ticks ticks h
  unfold point_value
  generalize (if max_ticks > 0 then ((ticks * 100) % 2 ^ 64) / max_ticks else 0) = q at h1 ⊢
  have hq : q % 2 ^ 16 = q := Nat.mod_eq_of_lt (lt_of_le_of_lt h1 (by norm_num))
  simp only [hq]
  split <;> omega

theorem point_value_eq_zero (max_ticks ticks : Nat) :
    point_value max_ticks ticks = 0 ↔ ticks = 0 := by
  unfold point_value
  constructor
  · generalize (if max_ticks > 0 then ((ticks * 100) % 2 ^ 64) / max_ticks else 0) = q
    intro h0
    by_contra hne
    have hpos : ticks > 0 := Nat.pos_of_ne_zero hne
    by_cases hc : ticks > 0 ∧ q % 2 ^ 16 = 0
    · simp only [hc, and_self, if_true] at h0
      omega
    · simp only [hc, if_false] at h0
      exact hc ⟨hpos, h0⟩
  · intro h0
    subst h0
    simp

theorem point_value_max (max_ticks : Nat) (h1 : max_ticks * 100 < 2 ^ 64) (h2 : 0 < max_ticks) :
    point_value max_ticks max_ticks = 100 := by
  have hq : (if max_ticks > 0 then ((max_ticks * 100) % 2 ^ 64) / max_ticks else 0) = 100 := by
    rw [if_pos h2, Nat.mod_eq_of_lt h1, Nat.mul_div_cancel_left _ h2]
  unfold point_value
  rw [hq]
  simp

/-- C10. Past the update-interval guard, `loop` writes one point per bucket,
the scaled value of its tick total (the product `ticks * 100` taken modulo
`2^64`); `max_ticks` is the largest total; every point is at most 100 and is 0
exactly when the total of its bucket is 0; and when `max_ticks * 100 < 2^64`
and `max_ticks > 0`, a bucket holding `max_ticks` gets 100. -/
theorem loop_points (elapsed_millis : Nat) (buckets : List Nat)
    (hguard : kUpdateIntervalMillis ≤ elapsed_millis) :
    loop elapsed_millis buckets =
        some (buckets.map (point_value (find_max_ticks buckets))) ∧
      (∀ ticks ∈ buckets, ticks ≤ find_max_ticks buckets) ∧
      (buckets ≠ [] → find_max_ticks buckets ∈ buckets) ∧
      ∀ ticks ∈ buckets,
        point_value (find_max_ticks buckets) ticks ≤ 100 ∧
        (point_value (find_max_ticks buckets) ticks = 0 ↔ ticks = 0) ∧
        (find_max_ticks buckets * 100 < 2 ^ 64 → 0 < find_max_ticks buckets →
          ticks = find_max_ticks buckets →
          point_value (find_max_ticks buckets) ticks = 100) := by
  refine ⟨?_, find_max_ticks_ge buckets, find_max_ticks_mem buckets, ?_⟩
  · have : ¬ elapsed_millis < kUpdateIntervalMillis := by omega
    simp [loop, this]
  · intro ticks ht
    have hle := find_max_ticks_ge buckets ticks ht
    refine ⟨point_value_le _ _ hle, point_value_eq_zero _ _, ?_⟩
    intro h1 h2 h3
    rw [h3]
    exact point_value_max _ h1 h2

/-- Instance of `loop_points`: four buckets, 201 ms after the last update. -/
theorem loop_points_witness :
    kUpdateIntervalMillis ≤ 201 ∧
    (loop 201 [0, 1, 1000, 5] =
        some ([0, 1, 1000, 5].map (point_value (find_max_ticks [0, 1, 1000, 5]))) ∧
      (∀ ticks ∈ [0, 1, 1000, 5], ticks ≤ find_max_ticks [0, 1, 1000, 5]) ∧
      ([0, 1, 1000, 5] ≠ [] → find_max_ticks [0, 1, 1000, 5] ∈ [0, 1, 1000, 5]) ∧
      ∀ ticks ∈ [0, 1, 1000, 5],
        point_value (find_max_ticks [0, 1, 1000, 5]) ticks ≤ 100 ∧
        (point_value (find_max_ticks [0, 1, 1000, 5]) ticks = 0 ↔ ticks = 0) ∧
        (find_max_ticks [0, 1, 1000, 5] * 100 < 2 ^ 64 → 0 < find_max_ticks [0, 1, 1000, 5] →
          ticks = find_max_ticks [0, 1, 1000, 5] →
          point_value (find_max_ticks [0, 1, 1000, 5]) ticks = 100)) :=
  ⟨by decide, loop_points 201 [0, 1, 1000, 5] (by decide)⟩

end TimeHistogramScreen
